import Mathlib

/-!
Verification development for the jgalilee/fractran repository.

The repository contains two Go implementations of the FRACTRAN interpreter:
the legacy package in lang/ (lang/parser.go, lang/program.go) and a rewritten
top-level package fractran.  Definitions suffixed with Lang embed the lang/
package; definitions suffixed with F embed the top-level fractran package.
Code shared verbatim by the two packages (Step, the tokenizer, integer and
fraction productions) is embedded once.

Modelling conventions:
- Go's math/big.Rat is an always-normalized arbitrary-precision rational;
  it is modelled by Lean's Rat (also stored in lowest terms).
  big.Rat.Mul multiplies numerators and denominators and renormalizes,
  which is exactly mkRat (a.num * b.num) (a.den * b.den).
  big.Rat.IsInt tests that the reduced denominator is 1, i.e. den = 1.
  big.Rat.Num of a value is its reduced numerator, i.e. Rat.num.
  big.NewRat(a, b) panics when b = 0; the panic is modelled as a distinct
  parser error constructor.
- Go's float64 Bound is modelled by FloatB: a finite rational, or plus or
  minus infinity.  The claims only exercise small integer bounds and the
  infinities, for which float64 comparison against float64(Steps) is exact,
  so the model compares exactly.  NaN is not modelled (no claim involves it).
- Steps is an int64 that only ever increments from 0 one step at a time, so
  it is modelled as an integer without wraparound (no run in any claim can
  approach 2^63 increments).
- Loops whose iteration count is not structurally bounded (Run, Debug, the
  parser's program and comma loops) take an explicit fuel argument; fuel
  exhaustion returns a distinguished value (none, or an outOfFuel error)
  and call sites supply fuel that provably suffices.  A loop that the Go
  code genuinely never exits (the lang Debug halt bug) is exhibited as
  returning the fuel-exhaustion marker for every fuel.
- Output written to the io.Writer is accumulated in a String.  fmt's "%v"
  decimal rendering of big.Int and big.Rat is modelled by renderInt and
  renderRat (standard base-10 rendering, and numerator-slash-denominator).
-/

deriving instance DecidableEq for Except

/-- Decimal digits of a natural number, most significant first; fuelled
structural recursion (fuel n + 1 always suffices since n / 10 shrinks). -/
def renderNatAux : Nat → Nat → List Char
  | 0, _ => []
  | f + 1, n =>
    if n < 10 then [Char.ofNat (48 + n)]
    else renderNatAux f (n / 10) ++ [Char.ofNat (48 + n % 10)]

/-- Base-10 rendering of a natural number, as written by Go's fmt. -/
def renderNat (n : Nat) : List Char := renderNatAux (n + 1) n

/-- Base-10 rendering of an integer, as written by Go's fmt for big.Int. -/
def renderInt (v : Int) : List Char :=
  if v < 0 then '-' :: renderNat v.natAbs else renderNat v.toNat

/-- Rendering of a big.Rat by Go's fmt: numerator, slash, denominator,
always in lowest terms (big.Rat stores the reduced form). -/
def renderRat (q : Rat) : List Char := renderInt q.num ++ '/' :: renderNat q.den

/-- String form of renderNat. -/
def natStr (n : Nat) : String := ⟨renderNat n⟩

/-- String form of renderInt. -/
def intStr (v : Int) : String := ⟨renderInt v⟩

/-- String form of renderRat. -/
def ratStr (q : Rat) : String := ⟨renderRat q⟩

/-- Model of big.Rat.Mul: multiply numerators and denominators, then store
in lowest terms (mkRat normalizes exactly as big.Rat does). -/
def ratMul (a b : Rat) : Rat := mkRat (a.num * b.num) (a.den * b.den)

/-- Model of the float64 Bound field: a finite value or an infinity. -/
inductive FloatB where
  | finite (q : Rat)
  | posInf
  | negInf
deriving DecidableEq

/-- Model of math.IsInf(b, -1). -/
def FloatB.isInfNeg : FloatB → Bool
  | .negInf => true
  | _ => false

/-- Model of the float64 comparison b > 0. -/
def FloatB.gtZero : FloatB → Bool
  | .finite q => decide (0 < q)
  | .posInf => true
  | .negInf => false

/-- Model of the float64 comparison b <= 0. -/
def FloatB.leZero : FloatB → Bool
  | .finite q => decide (q ≤ 0)
  | .posInf => false
  | .negInf => true

/-- Model of the loop guard p.Bound > float64(p.Steps); exact for the
integer bounds and step counts the program can reach. -/
def FloatB.gtInt : FloatB → Int → Bool
  | .finite q, s => decide ((s : Rat) < q)
  | .posInf, _ => true
  | .negInf, _ => false

/-- The FRACTRAN Program struct: index of the last instruction executed
(defaults to -1), number of steps taken, the step bound, the current value n
and the instruction list.  The zero value of the Go field n is a nil pointer
that is never read before Run assigns it; it is modelled as 0. -/
structure Program where
  last : Int
  steps : Int
  bound : FloatB
  n : Rat
  instrs : List Rat
deriving DecidableEq

/-- The instruction scan inside Step: walk the instruction list in order,
returning the index and product for the first instruction whose product
with n is an integer (reduced denominator 1, big.Rat.IsInt). -/
def stepScan (n : Rat) : List Rat → Nat → Option (Nat × Rat)
  | [], _ => none
  | i :: rest, j =>
    let tmp := ratMul n i
    if tmp.den = 1 then some (j, tmp) else stepScan n rest (j + 1)

/-- Model of Program.Step (identical in lang/program.go and the fractran
package): on the very first call report n as-is and increment Steps;
otherwise apply the first eligible instruction, or signal Halt (returning
the receiver unchanged -- the Go method mutates nothing on the halt path). -/
def Program.step (p : Program) : Option Int × Program :=
  if p.steps = 0 then (some p.n.num, { p with steps := p.steps + 1 })
  else
    match stepScan p.n p.instrs 0 with
    | some (j, tmp) =>
      (some tmp.num, { p with last := (j : Int), n := tmp, steps := p.steps + 1 })
    | none => (none, p)

/-- Iterated Step: the program state after k further Step calls. -/
def stepN : Nat → Program → Program
  | 0, p => p
  | k + 1, p => (Program.step (stepN k p)).2

/-- The values the first m Step calls produce, in production order (the
reference trace against which Run's emission order is stated); the list
ends early if a call halts. -/
def stepValues : Nat → Program → List Int
  | 0, _ => []
  | m + 1, p =>
    match Program.step p with
    | (some v, p2) => v :: stepValues m p2
    | (none, _) => []

/-- One newline-terminated decimal line per value, in order: the output
format of Run. -/
def valueLines : List Int → String
  | [] => ""
  | v :: vs => intStr v ++ "\n" ++ valueLines vs

/-- Construction errors of NewBoundProgram. -/
inductive CtorErr where
  | badBound
  | badFraction (q : Rat)
deriving DecidableEq

/-- Model of lang/program.go NewBoundProgram.  Its bound guard is the Go
condition math.IsInf(b, -1) && (b > 0), written here exactly as in the
source; a fraction i is rejected when i.Sign() <= 0, i.e. i.num <= 0. -/
def newBoundProgramLang (instrs : List Rat) (b : FloatB) : Except CtorErr Program :=
  if b.isInfNeg && b.gtZero then Except.error CtorErr.badBound
  else
    match instrs.find? (fun i => decide (i.num ≤ 0)) with
    | some i => Except.error (CtorErr.badFraction i)
    | none => Except.ok { last := -1, steps := 0, bound := b, n := 0, instrs := instrs }

/-- Model of the fractran package NewBoundProgram: bound guard
math.IsInf(b, -1) || b <= 0, then the same fraction validation. -/
def newBoundProgramF (instrs : List Rat) (b : FloatB) : Except CtorErr Program :=
  if b.isInfNeg || b.leZero then Except.error CtorErr.badBound
  else
    match instrs.find? (fun i => decide (i.num ≤ 0)) with
    | some i => Except.error (CtorErr.badFraction i)
    | none => Except.ok { last := -1, steps := 0, bound := b, n := 0, instrs := instrs }

/-- Model of lang NewProgram: infinite bound. -/
def newProgramLang (instrs : List Rat) : Except CtorErr Program :=
  newBoundProgramLang instrs FloatB.posInf

/-- Model of fractran NewProgram: infinite bound. -/
def newProgramF (instrs : List Rat) : Except CtorErr Program :=
  newBoundProgramF instrs FloatB.posInf

/-- What a Run call returned: nil, the Halt sentinel error, or the
"n must be positive" seed error. -/
inductive RunRet where
  | ok
  | halt
  | errSeed
deriving DecidableEq

/-- The Run loop of lang/program.go: while Bound > float64(Steps), call
Step; write the produced value and a newline, or return the Halt sentinel
(the value of err) when Step halts; return nil when the guard fails. -/
def runLoopLang : Nat → Program → String → Option (String × RunRet × Program)
  | 0, _, _ => none
  | f + 1, p, out =>
    if p.bound.gtInt p.steps then
      match p.step with
      | (some v, p2) => runLoopLang f p2 (out ++ intStr v ++ "\n")
      | (none, p2) => some (out, RunRet.halt, p2)
    else some (out, RunRet.ok, p)

/-- Model of lang Program.Run: reject a non-positive seed, assign
n = NewRat(seed, 1), then drive the loop. -/
def runLang (fuel : Nat) (p : Program) (seed : Int) : Option (String × RunRet × Program) :=
  if seed ≤ 0 then some ("", RunRet.errSeed, p)
  else runLoopLang fuel { p with n := mkRat seed 1 } ""

/-- The Run loop of the fractran package: identical to the lang loop except
that a halting Step makes Run return nil (normal termination). -/
def runLoopF : Nat → Program → String → Option (String × RunRet × Program)
  | 0, _, _ => none
  | f + 1, p, out =>
    if p.bound.gtInt p.steps then
      match p.step with
      | (some v, p2) => runLoopF f p2 (out ++ intStr v ++ "\n")
      | (none, p2) => some (out, RunRet.ok, p2)
    else some (out, RunRet.ok, p)

/-- Model of fractran Program.Run. -/
def runF (fuel : Nat) (p : Program) (seed : Int) : Option (String × RunRet × Program) :=
  if seed ≤ 0 then some ("", RunRet.errSeed, p)
  else runLoopF fuel { p with n := mkRat seed 1 } ""

/-- The instruction listing on a lang Debug trace line: each instruction is
preceded by a tab; the instruction whose index equals Last is bracketed and
the others are wrapped in single spaces, as in lang/program.go. -/
def instrsLineLang : List Rat → Int → Nat → String
  | [], _, _ => ""
  | i :: rest, lst, j =>
    (if lst = (j : Int) then "\t[" ++ ratStr i ++ "]" else "\t " ++ ratStr i ++ " ") ++
      instrsLineLang rest lst (j + 1)

/-- The instruction listing on a fractran Debug trace line: tab separated,
bracketing the instruction whose index equals Last, no surrounding spaces. -/
def instrsLineF : List Rat → Int → Nat → String
  | [], _, _ => ""
  | i :: rest, lst, j =>
    (if lst = (j : Int) then "\t[" ++ ratStr i ++ "]" else "\t" ++ ratStr i) ++
      instrsLineF rest lst (j + 1)

/-- The Debug loop of lang/program.go: while Bound > float64(Steps), call
Step; if it produced a value, write the value, a colon and the instruction
listing; in every iteration -- including the halt case, which the source
does not break out of -- write a newline and continue looping. -/
def debugLoopLang : Nat → Program → String → Option (String × Program)
  | 0, _, _ => none
  | f + 1, p, out =>
    if p.bound.gtInt p.steps then
      match p.step with
      | (some v, p2) =>
        debugLoopLang f p2 (out ++ intStr v ++ ":" ++ instrsLineLang p2.instrs p2.last 0 ++ "\n")
      | (none, p2) => debugLoopLang f p2 (out ++ "\n")
    else some (out, p)

/-- The Debug loop of the fractran package: like the lang loop, but a
halting Step breaks out of the loop before writing anything. -/
def debugLoopF : Nat → Program → String → Option (String × Program)
  | 0, _, _ => none
  | f + 1, p, out =>
    if p.bound.gtInt p.steps then
      match p.step with
      | (some v, p2) =>
        debugLoopF f p2 (out ++ intStr v ++ ":" ++ instrsLineF p2.instrs p2.last 0 ++ "\n")
      | (none, p2) => some (out, p2)
    else some (out, p)

/-- Tokens of the FRACTRAN grammar, as in the symbol type of the parser
(shared by lang/parser.go and the fractran package). -/
inductive TSym where
  | comma
  | digit
  | slash
  | done
deriving DecidableEq

/-- The tokenizer switch in Parser.next: comma, slash, digit, or done for
anything else.  Go uses unicode.IsDigit, which agrees with Char.isDigit on
ASCII input; every input in the spec and claims is ASCII. -/
def classify (c : Char) : TSym :=
  if c = ',' then TSym.comma
  else if c = '/' then TSym.slash
  else if c.isDigit then TSym.digit
  else TSym.done

/-- Scanner state: the current symbol, the current rune and the unread
input.  The Go struct also stores lastRune, the previously consumed rune;
its only read is inside the digit-collection loop of integer, where it
always equals the rune consumed by the accept just before, so the model
appends that rune directly and omits the dead field. -/
structure PState where
  sym : TSym
  cur : Char
  rest : List Char
deriving DecidableEq

/-- The scanner state whose current rune is the head of l (bufio.ReadRune
returns rune 0 together with io.EOF at end of input, and next then sets the
symbol to done). -/
def stAt : List Char → PState
  | [] => ⟨TSym.done, Char.ofNat 0, []⟩
  | c :: cs => ⟨classify c, c, cs⟩

/-- Model of Parser.next: read one rune and tokenize it. -/
def pnext (s : PState) : PState := stAt s.rest

/-- The digit-collection loop of Parser.integer ("for p.accept(digit)"):
while the current symbol is digit, advance and append the consumed rune to
the buffer.  Structural on the unread input: when input ends the next
iteration sees the done symbol and stops. -/
def cdAux : TSym → Char → List Char → List Char → List Char × PState
  | TSym.digit, cur, [], acc => (acc ++ [cur], stAt [])
  | TSym.digit, cur, c :: cs, acc => cdAux (classify c) c cs (acc ++ [cur])
  | sym, cur, rest, acc => (acc, ⟨sym, cur, rest⟩)

/-- The digit-collection loop, on a scanner state. -/
def collectDigits (s : PState) (acc : List Char) : List Char × PState :=
  cdAux s.sym s.cur s.rest acc

/-- Numeric value of a digit buffer, as strconv.ParseInt computes it. -/
def digitsVal (ds : List Char) : Nat :=
  ds.foldl (fun n c => 10 * n + (c.toNat - 48)) 0

/-- Largest int64, the range limit of strconv.ParseInt(s, 10, 64). -/
def int64Max : Nat := 9223372036854775807

/-- Parse errors.  unexpected is the "unexpected symbol got, expected want"
error of expect; intOverflow is the strconv.ParseInt range error; zeroDenom
marks the big.NewRat division-by-zero panic on a zero denominator;
emptyProgram is the fractran package's empty-program error; outOfFuel is
the model's marker for a loop iteration bound that was set too small (never
reached by the call sites proved below). -/
inductive PErr where
  | unexpected (got want : TSym)
  | intOverflow
  | zeroDenom
  | emptyProgram
  | outOfFuel
deriving DecidableEq

/-- Model of Parser.integer: expect a digit, collect the digit run, and
convert it with strconv.ParseInt(·, 10, 64), failing above int64Max. -/
def integerP (s : PState) : Except PErr (Nat × PState) :=
  if s.sym = TSym.digit then
    match collectDigits s [] with
    | (ds, s2) =>
      if digitsVal ds ≤ int64Max then Except.ok (digitsVal ds, s2)
      else Except.error PErr.intOverflow
  else Except.error (PErr.unexpected s.sym TSym.digit)

/-- Model of Parser.fraction: integer, slash, integer, then big.NewRat.
big.NewRat(num, den) normalizes to lowest terms (mkRat) and panics when
den = 0, modelled by the zeroDenom error. -/
def fractionP (s : PState) : Except PErr (Rat × PState) :=
  match integerP s with
  | Except.error e => Except.error e
  | Except.ok (num, s1) =>
    if s1.sym = TSym.slash then
      let s2 := pnext s1
      match integerP s2 with
      | Except.error e => Except.error e
      | Except.ok (den, s3) =>
        if den = 0 then Except.error PErr.zeroDenom
        else Except.ok (mkRat (num : Int) den, s3)
    else Except.error (PErr.unexpected s1.sym TSym.slash)

/-- The inner loop of Parser.program ("for p.accept(comma)"): as long as the
current symbol is a comma, consume it and parse another fraction. -/
def commaLoopP : Nat → PState → Except PErr (List Rat × PState)
  | 0, _ => Except.error PErr.outOfFuel
  | f + 1, s =>
    if s.sym = TSym.comma then
      match fractionP (pnext s) with
      | Except.error e => Except.error e
      | Except.ok (q, s2) =>
        match commaLoopP f s2 with
        | Except.error e => Except.error e
        | Except.ok (l, s3) => Except.ok (q :: l, s3)
    else Except.ok ([], s)

/-- The outer loop of Parser.program: while the current symbol is not done,
parse a fraction and then the comma-separated continuation. -/
def progLoopP : Nat → PState → Except PErr (List Rat)
  | 0, _ => Except.error PErr.outOfFuel
  | f + 1, s =>
    if s.sym = TSym.done then Except.ok []
    else
      match fractionP s with
      | Except.error e => Except.error e
      | Except.ok (q, s1) =>
        match commaLoopP (s1.rest.length + 2) s1 with
        | Except.error e => Except.error e
        | Except.ok (l, s2) =>
          match progLoopP f s2 with
          | Except.error e => Except.error e
          | Except.ok l2 => Except.ok (q :: l ++ l2)

/-- Model of the lang package Parse: prime the scanner with one next call
and run program.  The supplied iteration bounds always suffice: every outer
iteration and every comma iteration consumes at least one input character. -/
def parseLang (src : List Char) : Except PErr (List Rat) :=
  progLoopP (src.length + 2) (pnext ⟨TSym.comma, Char.ofNat 0, src⟩)

/-- Model of the fractran package Parse: identical except that a program
that is empty after the priming next call is rejected. -/
def parseF (src : List Char) : Except PErr (List Rat) :=
  let s := pnext ⟨TSym.comma, Char.ofNat 0, src⟩
  if s.sym = TSym.done then Except.error PErr.emptyProgram
  else progLoopP (src.length + 2) s

/-- The comma-prepended continuation of a comma-joined instruction list
rendering. -/
def renderSep : List Rat → List Char
  | [] => []
  | q :: l => ',' :: (renderRat q ++ renderSep l)

/-- Comma-joined rendering of an instruction list, the textual form the
trace output uses for each instruction. -/
def renderProgram : List Rat → List Char
  | [] => []
  | q :: l => renderRat q ++ renderSep l


/-- Conway's prime-generating instruction list, as constructed in the
repository's tests and examples. -/
def conwayInstrs : List Rat :=
  [mkRat 17 91, mkRat 78 85, mkRat 19 51, mkRat 23 38, mkRat 29 33, mkRat 77 29,
   mkRat 95 23, mkRat 77 19, mkRat 1 17, mkRat 11 13, mkRat 13 11, mkRat 15 14,
   mkRat 15 2, mkRat 55 1]

/-- A decimal digit character: one of the ten characters renderNat emits. -/
def isDig (c : Char) : Prop := ∃ d : Nat, d < 10 ∧ c = Char.ofNat (48 + d)

/-- A character that does not tokenize as a digit heads this input (or the
input is empty); the digit-collection loop stops exactly there. -/
def headND : List Char → Prop
  | [] => True
  | c :: _ => classify c ≠ TSym.digit

/-- The bounds that every fraction produced by the parser satisfies: the
numerator and denominator it was built from are int64 values, so the reduced
numerator is a nonnegative integer at most int64Max and the reduced
denominator is at most int64Max. -/
def parsedBounds (q : Rat) : Prop :=
  0 ≤ q.num ∧ q.num ≤ (int64Max : Int) ∧ q.den ≤ int64Max

example : parseLang "17/91,78/85".toList = Except.ok [mkRat 17 91, mkRat 78 85] := by decide
example : parseLang "".toList = Except.ok [] := by decide
example : parseLang "a/b".toList = Except.ok [] := by decide
example : parseLang "1/2x3".toList = Except.ok [mkRat 1 2] := by decide
example : parseLang "1//2".toList = Except.error (PErr.unexpected TSym.slash TSym.digit) := by decide
example : parseLang "12".toList = Except.error (PErr.unexpected TSym.done TSym.slash) := by decide
example : parseF "".toList = Except.error PErr.emptyProgram := by decide
example : parseLang "9223372036854775808/3".toList = Except.error PErr.intOverflow := by decide
example : parseLang "9223372036854775807/3".toList = Except.ok [mkRat 9223372036854775807 3] := by decide
example : renderProgram [mkRat 3 2, mkRat 1 3] = "3/2,1/3".toList := by decide

theorem renderNatAux_fuel (f : Nat) :
    ∀ (g n : Nat), n < f → n < g → renderNatAux f n = renderNatAux g n := by
  induction f with
  | zero => intro g n hf; omega
  | succ f ih =>
    intro g n hf hg
    obtain ⟨g2, rfl⟩ : ∃ g2, g = g2 + 1 := ⟨g - 1, by omega⟩
    show renderNatAux (f + 1) n = renderNatAux (g2 + 1) n
    simp only [renderNatAux]
    by_cases h10 : n < 10
    · rw [if_pos h10, if_pos h10]
    · rw [if_neg h10, if_neg h10]
      have hdiv : n / 10 < n := Nat.div_lt_self (by omega) (by omega)
      rw [ih g2 (n / 10) (by omega) (by omega)]

/-- One-step unfolding of the decimal renderer. -/
theorem renderNat_unfold (n : Nat) :
    renderNat n = if n < 10 then [Char.ofNat (48 + n)]
      else renderNat (n / 10) ++ [Char.ofNat (48 + n % 10)] := by
  show renderNatAux (n + 1) n = _
  simp only [renderNatAux]
  by_cases h10 : n < 10
  · rw [if_pos h10, if_pos h10]
  · rw [if_neg h10, if_neg h10]
    have hdiv : n / 10 < n := Nat.div_lt_self (by omega) (by omega)
    rw [renderNatAux_fuel n (n / 10 + 1) (n / 10) (by omega) (by omega)]
    rfl

theorem renderNat_ne_nil_digits (n : Nat) :
    renderNat n ≠ [] ∧ ∀ c ∈ renderNat n, isDig c := by
  induction n using Nat.strong_induction_on with
  | _ n ih =>
    rw [renderNat_unfold n]
    by_cases h10 : n < 10
    · rw [if_pos h10]
      refine ⟨by simp, ?_⟩
      intro c hc
      rw [List.mem_singleton] at hc
      exact ⟨n, h10, hc⟩
    · rw [if_neg h10]
      have hdiv : n / 10 < n := Nat.div_lt_self (by omega) (by omega)
      refine ⟨by simp [(ih (n / 10) hdiv).1], ?_⟩
      intro c hc
      rw [List.mem_append] at hc
      rcases hc with hc | hc
      · exact (ih (n / 10) hdiv).2 c hc
      · rw [List.mem_singleton] at hc
        exact ⟨n % 10, Nat.mod_lt n (by omega), hc⟩

theorem toNat_digitChar (d : Nat) (hd : d < 10) :
    (Char.ofNat (48 + d)).toNat = 48 + d := by
  interval_cases d <;> decide

theorem digitsVal_append_digit (xs : List Char) (c : Char) :
    digitsVal (xs ++ [c]) = 10 * digitsVal xs + (c.toNat - 48) := by
  unfold digitsVal
  rw [List.foldl_append]
  rfl

theorem digitsVal_renderNat (n : Nat) : digitsVal (renderNat n) = n := by
  induction n using Nat.strong_induction_on with
  | _ n ih =>
    rw [renderNat_unfold n]
    by_cases h10 : n < 10
    · rw [if_pos h10]
      show digitsVal ([] ++ [Char.ofNat (48 + n)]) = n
      rw [digitsVal_append_digit, toNat_digitChar n h10]
      simp [digitsVal]
    · rw [if_neg h10]
      have hdiv : n / 10 < n := Nat.div_lt_self (by omega) (by omega)
      rw [digitsVal_append_digit, ih (n / 10) hdiv,
        toNat_digitChar (n % 10) (Nat.mod_lt n (by omega))]
      omega

theorem classify_isDig (c : Char) (h : isDig c) : classify c = TSym.digit := by
  obtain ⟨d, hd, rfl⟩ := h
  interval_cases d <;> decide

theorem cdAux_nondigit (sym : TSym) (cur : Char) (rest acc : List Char)
    (h : sym ≠ TSym.digit) : cdAux sym cur rest acc = (acc, ⟨sym, cur, rest⟩) := by
  cases sym with
  | digit => exact absurd rfl h
  | comma => cases rest <;> rfl
  | slash => cases rest <;> rfl
  | done => cases rest <;> rfl

theorem cdAux_digits (ds : List Char) :
    ∀ (cur : Char) (tail acc : List Char), (∀ c ∈ ds, isDig c) → headND tail →
      cdAux TSym.digit cur (ds ++ tail) acc = (acc ++ cur :: ds, stAt tail) := by
  induction ds with
  | nil =>
    intro cur tail acc _ htail
    cases tail with
    | nil => rfl
    | cons c cs =>
      show cdAux (classify c) c cs (acc ++ [cur]) = (acc ++ [cur], stAt (c :: cs))
      rw [cdAux_nondigit (classify c) c cs (acc ++ [cur]) htail]
      rfl
  | cons d ds ih =>
    intro cur tail acc hds htail
    show cdAux (classify d) d (ds ++ tail) (acc ++ [cur]) = _
    rw [classify_isDig d (hds d (by simp))]
    rw [ih d tail (acc ++ [cur]) (fun c hc => hds c (by simp [hc])) htail]
    simp

/-- Parser.integer on input that starts with the decimal rendering of n
followed by a non-digit: it consumes exactly the numeral and yields n when
n fits in an int64, and the ParseInt range error otherwise. -/
theorem integerP_render (n : Nat) (tail : List Char) (ht : headND tail) :
    integerP (stAt (renderNat n ++ tail)) =
      if n ≤ int64Max then Except.ok (n, stAt tail)
      else Except.error PErr.intOverflow := by
  obtain ⟨hne, hdigs⟩ := renderNat_ne_nil_digits n
  obtain ⟨d, ds, hds⟩ : ∃ d ds, renderNat n = d :: ds := by
    cases hrn : renderNat n with
    | nil => exact absurd hrn hne
    | cons d ds => exact ⟨d, ds, rfl⟩
  rw [hds] at hdigs ⊢
  have hclass : classify d = TSym.digit := classify_isDig d (hdigs d (by simp))
  show integerP ⟨classify d, d, ds ++ tail⟩ = _
  unfold integerP
  rw [hclass]
  rw [if_pos rfl]
  show (match collectDigits ⟨TSym.digit, d, ds ++ tail⟩ [] with
    | (ds2, s2) => if digitsVal ds2 ≤ int64Max then Except.ok (digitsVal ds2, s2)
        else Except.error PErr.intOverflow) = _
  have hcd : collectDigits ⟨TSym.digit, d, ds ++ tail⟩ [] = (d :: ds, stAt tail) := by
    show cdAux TSym.digit d (ds ++ tail) [] = _
    rw [cdAux_digits ds d tail [] (fun c hc => hdigs c (by simp [hc])) ht]
    rfl
  rw [hcd]
  have hval : digitsVal (d :: ds) = n := by rw [← hds]; exact digitsVal_renderNat n
  show (if digitsVal (d :: ds) ≤ int64Max then Except.ok (digitsVal (d :: ds), stAt tail)
      else Except.error PErr.intOverflow) = _
  rw [hval]

/-- Parser.fraction on input that starts with the rendering of a fraction
the parser could itself have produced, followed by a non-digit: it consumes
exactly the rendering and returns the same fraction. -/
theorem fractionP_render (q : Rat) (hq : parsedBounds q) (tail : List Char)
    (ht : headND tail) :
    fractionP (stAt (renderRat q ++ tail)) = Except.ok (q, stAt tail) := by
  obtain ⟨hn0, hnmax, hdmax⟩ := hq
  have hri : renderInt q.num = renderNat q.num.toNat := by
    unfold renderInt
    rw [if_neg (by omega)]
  have hsrc : renderRat q ++ tail =
      renderNat q.num.toNat ++ ('/' :: (renderNat q.den ++ tail)) := by
    unfold renderRat
    rw [hri]
    simp
  have hnum : integerP (stAt (renderRat q ++ tail)) =
      Except.ok (q.num.toNat, stAt ('/' :: (renderNat q.den ++ tail))) := by
    rw [hsrc, integerP_render q.num.toNat ('/' :: (renderNat q.den ++ tail))
      (by show classify '/' ≠ TSym.digit; decide)]
    rw [if_pos (show q.num.toNat ≤ int64Max by omega)]
  have hden : integerP (stAt (renderNat q.den ++ tail)) =
      Except.ok (q.den, stAt tail) := by
    rw [integerP_render q.den tail ht, if_pos hdmax]
  unfold fractionP
  rw [hnum]
  dsimp only
  rw [if_pos (show (stAt ('/' :: (renderNat q.den ++ tail))).sym = TSym.slash from rfl)]
  have hpn : pnext (stAt ('/' :: (renderNat q.den ++ tail))) =
      stAt (renderNat q.den ++ tail) := rfl
  rw [hpn, hden]
  dsimp only
  rw [if_neg (Nat.pos_iff_ne_zero.mp q.den_pos)]
  have hcast : ((q.num.toNat : Int)) = q.num := Int.toNat_of_nonneg hn0
  rw [hcast, Rat.mkRat_self]

/-- Length bound used for the comma-loop fuel: the separated rendering has
at least one character per instruction. -/
theorem renderSep_length (l : List Rat) :
    l.length ≤ (renderSep l).length := by
  induction l with
  | nil => simp [renderSep]
  | cons q l ih =>
    show l.length + 1 ≤ (',' :: (renderRat q ++ renderSep l)).length
    simp only [List.length_cons, List.length_append]
    omega

theorem headND_renderSep (l : List Rat) : headND (renderSep l) := by
  cases l with
  | nil => trivial
  | cons q l => show classify ',' ≠ TSym.digit; decide

/-- The comma loop of program() on the rendered separated continuation:
with fuel exceeding the number of instructions it consumes everything and
returns the instruction list, leaving the scanner at end of input. -/
theorem commaLoopP_render (l : List Rat) :
    ∀ f : Nat, (∀ q ∈ l, parsedBounds q) → l.length < f →
      commaLoopP f (stAt (renderSep l)) = Except.ok (l, stAt []) := by
  induction l with
  | nil =>
    intro f _ hf
    obtain ⟨f2, rfl⟩ : ∃ f2, f = f2 + 1 := ⟨f - 1, by omega⟩
    show commaLoopP (f2 + 1) (stAt []) = Except.ok ([], stAt [])
    unfold commaLoopP
    rw [if_neg (show (stAt ([] : List Char)).sym ≠ TSym.comma by decide)]
  | cons q l ih =>
    intro f hb hf
    obtain ⟨f2, rfl⟩ : ∃ f2, f = f2 + 1 := ⟨f - 1, by omega⟩
    show commaLoopP (f2 + 1) (stAt (',' :: (renderRat q ++ renderSep l))) = _
    unfold commaLoopP
    rw [if_pos (show (stAt (',' :: (renderRat q ++ renderSep l))).sym =
      TSym.comma from rfl)]
    have hpn : pnext (stAt (',' :: (renderRat q ++ renderSep l))) =
        stAt (renderRat q ++ renderSep l) := rfl
    rw [hpn]
    rw [fractionP_render q (hb q (by simp)) (renderSep l) (headND_renderSep l)]
    dsimp only
    rw [ih f2 (fun x hx => hb x (by simp [hx])) (by simpa using hf)]

theorem stAt_sym_of_digits (x tail : List Char) (hx : x ≠ []) (hd : ∀ c ∈ x, isDig c) :
    (stAt (x ++ tail)).sym = TSym.digit := by
  cases x with
  | nil => exact absurd rfl hx
  | cons c cs => exact classify_isDig c (hd c (by simp))

/-- The comma-loop fuel chosen inside program() always exceeds the number
of instructions remaining in the rendered continuation. -/
theorem stAt_renderSep_fuel (l : List Rat) :
    l.length < (stAt (renderSep l)).rest.length + 2 := by
  cases l with
  | nil => simp [renderSep, stAt]
  | cons q l =>
    have h := renderSep_length (q :: l)
    show (q :: l).length <
      (stAt (',' :: (renderRat q ++ renderSep l))).rest.length + 2
    simp only [stAt, List.length_cons, List.length_append] at h ⊢
    simp only [renderSep, List.length_cons, List.length_append] at h
    omega

/-- Parse applied to the rendering of an instruction list whose members the
parser could have produced returns exactly that list. -/
theorem parseLang_render (l : List Rat) (hb : ∀ q ∈ l, parsedBounds q) :
    parseLang (renderProgram l) = Except.ok l := by
  cases l with
  | nil => rfl
  | cons q l2 =>
    have hbq := hb q (by simp)
    obtain ⟨hn0, hnmax, hdmax⟩ := hbq
    have hri : renderInt q.num = renderNat q.num.toNat := by
      unfold renderInt
      rw [if_neg (by omega)]
    obtain ⟨hne, hdigs⟩ := renderNat_ne_nil_digits q.num.toNat
    have hsym : (stAt (renderRat q ++ renderSep l2)).sym = TSym.digit := by
      have hx : renderRat q ++ renderSep l2 =
          renderNat q.num.toNat ++
            ('/' :: renderNat q.den ++ renderSep l2) := by
        unfold renderRat
        rw [hri]
        simp
      rw [hx]
      exact stAt_sym_of_digits (renderNat q.num.toNat) _ hne hdigs
    show progLoopP ((renderRat q ++ renderSep l2).length + 2)
        (stAt (renderRat q ++ renderSep l2)) = Except.ok (q :: l2)
    obtain ⟨F, hF⟩ : ∃ F, (renderRat q ++ renderSep l2).length + 2 = F + 1 :=
      ⟨(renderRat q ++ renderSep l2).length + 1, rfl⟩
    rw [hF]
    unfold progLoopP
    rw [if_neg (by rw [hsym]; decide)]
    rw [fractionP_render q ⟨hn0, hnmax, hdmax⟩ (renderSep l2)
      (headND_renderSep l2)]
    dsimp only
    rw [commaLoopP_render l2 _ (fun x hx => hb x (by simp [hx])) (stAt_renderSep_fuel l2)]
    dsimp only
    obtain ⟨F2, hF2⟩ : ∃ F2, F = F2 + 1 := ⟨F - 1, by omega⟩
    rw [hF2]
    unfold progLoopP
    rw [if_pos (show (stAt ([] : List Char)).sym = TSym.done from rfl)]
    simp

/-- A fraction built by big.NewRat from int64 values a/b, b nonzero, has a
nonnegative reduced numerator at most a and a reduced denominator at most b,
so both fit back into an int64. -/
theorem mkRat_parsedBounds (a b : Nat) (ha : a ≤ int64Max) (hb1 : 1 ≤ b)
    (hb2 : b ≤ int64Max) : parsedBounds (mkRat (a : Int) b) := by
  have hbz : ((b : Nat) : Int) ≠ 0 := by
    simp only [ne_eq, Int.natCast_eq_zero]
    omega
  have hdiv : mkRat (a : Int) b = Rat.divInt (a : Int) (b : Int) := Rat.mkRat_eq_divInt a b
  have hnum0 : 0 ≤ (mkRat (a : Int) b).num := by
    rw [Rat.num_nonneg]
    exact Rat.mkRat_nonneg (Int.natCast_nonneg a) b
  refine ⟨hnum0, ?_, ?_⟩
  · by_cases ha0 : a = 0
    · subst ha0
      have : mkRat ((0 : Nat) : Int) b = 0 := by
        rw [hdiv]
        simp only [Int.natCast_zero]
        exact Rat.zero_divInt (b : Int)
      rw [this]
      simp
    · have hdvd : (mkRat (a : Int) b).num ∣ (a : Int) := by
        rw [hdiv]
        exact Rat.num_dvd (a : Int) hbz
      have hle : (mkRat (a : Int) b).num ≤ (a : Int) :=
        Int.le_of_dvd (by omega) hdvd
      have : ((a : Nat) : Int) ≤ ((int64Max : Nat) : Int) := by
        exact_mod_cast ha
      omega
  · have hdvd : ((mkRat (a : Int) b).den : Int) ∣ ((b : Nat) : Int) := by
      rw [hdiv]
      exact Rat.den_dvd (a : Int) (b : Int)
    have hdvd2 : (mkRat (a : Int) b).den ∣ b := by
      exact_mod_cast hdvd
    exact le_trans (Nat.le_of_dvd (by omega) hdvd2) hb2

theorem integerP_le (s : PState) (v : Nat) (s2 : PState)
    (h : integerP s = Except.ok (v, s2)) : v ≤ int64Max := by
  unfold integerP at h
  by_cases hsym : s.sym = TSym.digit
  · rw [if_pos hsym] at h
    rcases hcd : collectDigits s [] with ⟨ds, s3⟩
    rw [hcd] at h
    dsimp only at h
    by_cases hle : digitsVal ds ≤ int64Max
    · rw [if_pos hle] at h
      injection h with h2
      injection h2 with h3 h4
      omega
    · rw [if_neg hle] at h
      cases h
  · rw [if_neg hsym] at h
    cases h

/-- Every fraction that Parser.fraction returns satisfies parsedBounds. -/
theorem fractionP_bounds (s : PState) (q : Rat) (s2 : PState)
    (h : fractionP s = Except.ok (q, s2)) : parsedBounds q := by
  unfold fractionP at h
  rcases hint : integerP s with e | v
  · rw [hint] at h
    cases h
  · obtain ⟨num, s1⟩ := v
    rw [hint] at h
    dsimp only at h
    by_cases hs : s1.sym = TSym.slash
    · rw [if_pos hs] at h
      rcases hint2 : integerP (pnext s1) with e | v2
      · rw [hint2] at h
        cases h
      · obtain ⟨den, s3⟩ := v2
        rw [hint2] at h
        dsimp only at h
        by_cases hd0 : den = 0
        · rw [if_pos hd0] at h
          cases h
        · rw [if_neg hd0] at h
          injection h with h2
          injection h2 with h3 h4
          rw [← h3]
          exact mkRat_parsedBounds num den (integerP_le s num s1 hint)
            (by omega) (integerP_le (pnext s1) den s3 hint2)
    · rw [if_neg hs] at h
      cases h

theorem commaLoopP_bounds :
    ∀ (f : Nat) (s : PState) (l : List Rat) (s2 : PState),
      commaLoopP f s = Except.ok (l, s2) → ∀ q ∈ l, parsedBounds q := by
  intro f
  induction f with
  | zero =>
    intro s l s2 h
    simp [commaLoopP] at h
  | succ f ih =>
    intro s l s2 h
    unfold commaLoopP at h
    by_cases hc : s.sym = TSym.comma
    · rw [if_pos hc] at h
      rcases hfr : fractionP (pnext s) with e | v
      · rw [hfr] at h
        cases h
      · obtain ⟨q1, s3⟩ := v
        rw [hfr] at h
        dsimp only at h
        rcases hcl : commaLoopP f s3 with e | v2
        · rw [hcl] at h
          cases h
        · obtain ⟨l3, s4⟩ := v2
          rw [hcl] at h
          dsimp only at h
          injection h with h2
          injection h2 with h3 h4
          subst h3
          intro x hx
          rw [List.mem_cons] at hx
          rcases hx with rfl | hx
          · exact fractionP_bounds (pnext s) x s3 hfr
          · exact ih s3 l3 s4 hcl x hx
    · rw [if_neg hc] at h
      injection h with h2
      injection h2 with h3 h4
      subst h3
      intro x hx
      cases hx

theorem progLoopP_bounds :
    ∀ (f : Nat) (s : PState) (l : List Rat),
      progLoopP f s = Except.ok l → ∀ q ∈ l, parsedBounds q := by
  intro f
  induction f with
  | zero =>
    intro s l h
    simp [progLoopP] at h
  | succ f ih =>
    intro s l h
    unfold progLoopP at h
    by_cases hdn : s.sym = TSym.done
    · rw [if_pos hdn] at h
      injection h with h2
      subst h2
      intro x hx
      cases hx
    · rw [if_neg hdn] at h
      rcases hfr : fractionP s with e | v
      · rw [hfr] at h
        cases h
      · obtain ⟨q1, s1⟩ := v
        rw [hfr] at h
        dsimp only at h
        rcases hcl : commaLoopP (s1.rest.length + 2) s1 with e | v2
        · rw [hcl] at h
          cases h
        · obtain ⟨l2, s2⟩ := v2
          rw [hcl] at h
          dsimp only at h
          rcases hpl : progLoopP f s2 with e | l3
          · rw [hpl] at h
            cases h
          · rw [hpl] at h
            dsimp only at h
            injection h with h2
            subst h2
            intro x hx
            simp only [List.mem_cons, List.mem_append] at hx
            rcases hx with (rfl | hx) | hx
            · exact fractionP_bounds s x s1 hfr
            · exact commaLoopP_bounds (s1.rest.length + 2) s1 l2 s2 hcl x hx
            · exact ih s2 l3 hpl x hx

/-- Every fraction of a successfully parsed program satisfies the int64
bounds. -/
theorem parseLang_bounds (src : List Char) (l : List Rat)
    (h : parseLang src = Except.ok l) : ∀ q ∈ l, parsedBounds q :=
  progLoopP_bounds (src.length + 2) (pnext ⟨TSym.comma, Char.ofNat 0, src⟩) l h

/-- C9: re-parsing the comma-joined rendering of a successfully parsed
instruction list yields the same list, element by element and in order. -/
theorem parse_render_roundtrip (src : List Char) (l : List Rat)
    (h : parseLang src = Except.ok l) :
    parseLang (renderProgram l) = Except.ok l :=
  parseLang_render l (parseLang_bounds src l h)

/-- C9 witness: roundtrip on the parsed form of "3/2,1/3". -/
theorem parse_render_roundtrip_witness :
    parseLang (renderProgram [mkRat 3 2, mkRat 1 3]) =
      Except.ok [mkRat 3 2, mkRat 1 3] :=
  parse_render_roundtrip ("3/2,1/3".toList) [mkRat 3 2, mkRat 1 3] (by decide)

/-- C6 counterexample: the numeral 9223372036854775808 (2 to the 63rd,
one past the int64 maximum) makes the parser fail with the ParseInt range
error, while the numeral one below parses; so the magnitude of a numeral is
a cause of parse failure, contrary to the claim. -/
theorem parse_bignum_overflow_cex :
    parseLang "9223372036854775808/3".toList = Except.error PErr.intOverflow ∧
    parseLang "9223372036854775807/3".toList =
      Except.ok [mkRat 9223372036854775807 3] :=
  ⟨by decide, by decide⟩

/-- C6 amended: a fraction text a/b parses to the exact fraction a/b
whenever both numerals have values at most int64Max = 2 to the 63rd minus
one (and b is nonzero); a numeral whose value exceeds int64Max always
fails with the ParseInt range error, whether it stands in numerator
position (whatever the denominator) or in denominator position (for any
in-range numerator). -/
theorem parseLang_numeral_range :
    (∀ a b : Nat, a ≤ int64Max → 1 ≤ b → b ≤ int64Max →
      parseLang (renderNat a ++ '/' :: renderNat b) = Except.ok [mkRat (a : Int) b]) ∧
    (∀ a b : Nat, int64Max < a →
      parseLang (renderNat a ++ '/' :: renderNat b) = Except.error PErr.intOverflow) ∧
    (∀ a b : Nat, a ≤ int64Max → int64Max < b →
      parseLang (renderNat a ++ '/' :: renderNat b) = Except.error PErr.intOverflow) := by
  refine ⟨?_, ?_, ?_⟩
  · intro a b ha hb1 hb2
    obtain ⟨hneA, hdigsA⟩ := renderNat_ne_nil_digits a
    have hsym : (stAt (renderNat a ++ '/' :: renderNat b)).sym = TSym.digit :=
      stAt_sym_of_digits (renderNat a) _ hneA hdigsA
    have hnum : integerP (stAt (renderNat a ++ '/' :: renderNat b)) =
        Except.ok (a, stAt ('/' :: renderNat b)) := by
      rw [integerP_render a ('/' :: renderNat b)
        (show classify '/' ≠ TSym.digit by decide)]
      rw [if_pos ha]
    have hden : integerP (stAt (renderNat b)) = Except.ok (b, stAt []) := by
      have h0 : integerP (stAt (renderNat b)) = integerP (stAt (renderNat b ++ [])) := by
        rw [List.append_nil]
      rw [h0, integerP_render b [] trivial, if_pos hb2]
    have hfr : fractionP (stAt (renderNat a ++ '/' :: renderNat b)) =
        Except.ok (mkRat (a : Int) b, stAt []) := by
      unfold fractionP
      rw [hnum]
      dsimp only
      rw [if_pos (show (stAt ('/' :: renderNat b)).sym = TSym.slash from rfl)]
      have hpn : pnext (stAt ('/' :: renderNat b)) = stAt (renderNat b) := rfl
      rw [hpn, hden]
      dsimp only
      rw [if_neg (show ¬ b = 0 by omega)]
    show progLoopP ((renderNat a ++ '/' :: renderNat b).length + 2)
      (stAt (renderNat a ++ '/' :: renderNat b)) = _
    have hF : (renderNat a ++ '/' :: renderNat b).length + 2 =
        ((renderNat a ++ '/' :: renderNat b).length + 1) + 1 := rfl
    rw [hF]
    unfold progLoopP
    rw [if_neg (by rw [hsym]; decide)]
    rw [hfr]
    dsimp only
    have hcl : commaLoopP ((stAt ([] : List Char)).rest.length + 2) (stAt []) =
        Except.ok ([], stAt []) := by decide
    rw [hcl]
    dsimp only
    unfold progLoopP
    rw [if_pos (show (stAt ([] : List Char)).sym = TSym.done from rfl)]
    simp
  · intro a b ha
    obtain ⟨hneA, hdigsA⟩ := renderNat_ne_nil_digits a
    have hsym : (stAt (renderNat a ++ '/' :: renderNat b)).sym = TSym.digit :=
      stAt_sym_of_digits (renderNat a) _ hneA hdigsA
    have hnum : integerP (stAt (renderNat a ++ '/' :: renderNat b)) =
        Except.error PErr.intOverflow := by
      rw [integerP_render a ('/' :: renderNat b)
        (show classify '/' ≠ TSym.digit by decide)]
      rw [if_neg (show ¬ a ≤ int64Max by omega)]
    have hfr : fractionP (stAt (renderNat a ++ '/' :: renderNat b)) =
        Except.error PErr.intOverflow := by
      unfold fractionP
      rw [hnum]
    show progLoopP ((renderNat a ++ '/' :: renderNat b).length + 2)
      (stAt (renderNat a ++ '/' :: renderNat b)) = _
    have hF : (renderNat a ++ '/' :: renderNat b).length + 2 =
        ((renderNat a ++ '/' :: renderNat b).length + 1) + 1 := rfl
    rw [hF]
    unfold progLoopP
    rw [if_neg (by rw [hsym]; decide)]
    rw [hfr]
  · intro a b ha hb
    obtain ⟨hneA, hdigsA⟩ := renderNat_ne_nil_digits a
    have hsym : (stAt (renderNat a ++ '/' :: renderNat b)).sym = TSym.digit :=
      stAt_sym_of_digits (renderNat a) _ hneA hdigsA
    have hnum : integerP (stAt (renderNat a ++ '/' :: renderNat b)) =
        Except.ok (a, stAt ('/' :: renderNat b)) := by
      rw [integerP_render a ('/' :: renderNat b)
        (show classify '/' ≠ TSym.digit by decide)]
      rw [if_pos ha]
    have hden : integerP (stAt (renderNat b)) = Except.error PErr.intOverflow := by
      have h0 : integerP (stAt (renderNat b)) = integerP (stAt (renderNat b ++ [])) := by
        rw [List.append_nil]
      rw [h0, integerP_render b [] trivial, if_neg (show ¬ b ≤ int64Max by omega)]
    have hfr : fractionP (stAt (renderNat a ++ '/' :: renderNat b)) =
        Except.error PErr.intOverflow := by
      unfold fractionP
      rw [hnum]
      dsimp only
      rw [if_pos (show (stAt ('/' :: renderNat b)).sym = TSym.slash from rfl)]
      have hpn : pnext (stAt ('/' :: renderNat b)) = stAt (renderNat b) := rfl
      rw [hpn, hden]
    show progLoopP ((renderNat a ++ '/' :: renderNat b).length + 2)
      (stAt (renderNat a ++ '/' :: renderNat b)) = _
    have hF : (renderNat a ++ '/' :: renderNat b).length + 2 =
        ((renderNat a ++ '/' :: renderNat b).length + 1) + 1 := rfl
    rw [hF]
    unfold progLoopP
    rw [if_neg (by rw [hsym]; decide)]
    rw [hfr]

/-- C6 witness: the amended range theorem applied to 12345/7, to the
overflowing numerator 2 to the 63rd over 3, and to the overflowing
denominator 1 over 2 to the 63rd. -/
theorem parseLang_numeral_range_witness :
    parseLang (renderNat 12345 ++ '/' :: renderNat 7) =
      Except.ok [mkRat (12345 : Int) 7] ∧
    parseLang (renderNat 9223372036854775808 ++ '/' :: renderNat 3) =
      Except.error PErr.intOverflow ∧
    parseLang (renderNat 1 ++ '/' :: renderNat 9223372036854775808) =
      Except.error PErr.intOverflow :=
  ⟨parseLang_numeral_range.1 12345 7 (by decide) (by decide) (by decide),
   parseLang_numeral_range.2.1 9223372036854775808 3 (by decide),
   parseLang_numeral_range.2.2 1 9223372036854775808 (by decide) (by decide)⟩

example :
    newBoundProgramLang conwayInstrs (FloatB.finite 11) =
      Except.ok { last := -1, steps := 0, bound := FloatB.finite 11, n := 0,
                  instrs := conwayInstrs } := by decide

example :
    (runLang 64 { last := -1, steps := 0, bound := FloatB.finite 11, n := 0,
                  instrs := conwayInstrs } 2).map (fun r => (r.1, r.2.1)) =
      some ("2\n15\n825\n725\n1925\n2275\n425\n390\n330\n290\n770\n", RunRet.ok) := by decide

example :
    (debugLoopF 16 { last := -1, steps := 0, bound := FloatB.finite 3, n := 3,
                     instrs := [mkRat 1 2] } "").map (fun r => r.1) =
      some ("3:\t1/2\n") := by decide

/-- C1: For the instruction list 17/91, ..., 55/1 constructed with bound 11,
Run with seed 2 writes exactly the eleven values 2, 15, 825, 725, 1925, 2275,
425, 390, 330, 290, 770, in this order, one decimal value per
newline-terminated line, and nothing else.  Both the lang and the fractran
construction and Run produce exactly this output and stop at the bound. -/
theorem conway_bound11_run :
    newBoundProgramLang conwayInstrs (FloatB.finite 11) =
      Except.ok ⟨-1, 0, FloatB.finite 11, 0, conwayInstrs⟩ ∧
    newBoundProgramF conwayInstrs (FloatB.finite 11) =
      Except.ok ⟨-1, 0, FloatB.finite 11, 0, conwayInstrs⟩ ∧
    runLang 64 ⟨-1, 0, FloatB.finite 11, 0, conwayInstrs⟩ 2 =
      some ("2\n15\n825\n725\n1925\n2275\n425\n390\n330\n290\n770\n", RunRet.ok,
            ⟨5, 11, FloatB.finite 11, 770, conwayInstrs⟩) ∧
    runF 64 ⟨-1, 0, FloatB.finite 11, 0, conwayInstrs⟩ 2 =
      some ("2\n15\n825\n725\n1925\n2275\n425\n390\n330\n290\n770\n", RunRet.ok,
            ⟨5, 11, FloatB.finite 11, 770, conwayInstrs⟩) :=
  ⟨by decide, by decide, by decide, by decide⟩

/-- Every successful return of the fractran Run loop carries the nil result:
halting and reaching the bound both return normally. -/
theorem runLoopF_ok :
    ∀ (f : Nat) (p : Program) (out : String) (r : String × RunRet × Program),
      runLoopF f p out = some r → r.2.1 = RunRet.ok := by
  intro f
  induction f with
  | zero => intro p out r h; simp [runLoopF] at h
  | succ f ih =>
    intro p out r h
    rw [runLoopF] at h
    by_cases hg : p.bound.gtInt p.steps
    · rw [if_pos hg] at h
      rcases hp : p.step with ⟨o, p2⟩
      rw [hp] at h
      cases o with
      | some v => exact ih p2 _ r h
      | none => cases h; rfl
    · rw [if_neg hg] at h
      cases h; rfl

/-- String append with the empty string on the right. -/
theorem strAppend_empty (s : String) : s ++ "" = s := by
  rcases s with ⟨l⟩
  show String.mk (l ++ []) = String.mk l
  rw [List.append_nil]

/-- String append with the empty string on the left. -/
theorem strEmpty_append (s : String) : "" ++ s = s := rfl

/-- Associativity of String append. -/
theorem strAppend_assoc (a b c : String) : a ++ b ++ c = a ++ (b ++ c) := by
  rcases a with ⟨x⟩
  rcases b with ⟨y⟩
  rcases c with ⟨z⟩
  show String.mk ((x ++ y) ++ z) = String.mk (x ++ (y ++ z))
  rw [List.append_assoc]

/-- A Step call that signals halt returns its receiver unchanged (the Go
halt path mutates nothing). -/
theorem step_halt_eq (p : Program) (h : (Program.step p).1 = none) :
    Program.step p = (none, p) := by
  unfold Program.step at h ⊢
  by_cases hs : p.steps = 0
  · rw [if_pos hs] at h
    simp at h
  · rw [if_neg hs] at h ⊢
    cases hscan : stepScan p.n p.instrs 0 with
    | none => rfl
    | some x =>
      rw [hscan] at h
      cases x
      simp at h

/-- The lang Run loop never reports the seed error, and its return code
characterizes why it stopped: the Halt sentinel exactly when the final
program is still below its bound and its Step halts, nil exactly when the
bound guard failed. -/
theorem runLoopLang_code :
    ∀ (f : Nat) (p : Program) (out : String) (r : String × RunRet × Program),
      runLoopLang f p out = some r →
        (r.2.1 = RunRet.halt ∨ r.2.1 = RunRet.ok) ∧
        (r.2.1 = RunRet.halt ↔
          r.2.2.bound.gtInt r.2.2.steps = true ∧ (Program.step r.2.2).1 = none) ∧
        (r.2.1 = RunRet.ok ↔ r.2.2.bound.gtInt r.2.2.steps = false) := by
  intro f
  induction f with
  | zero =>
    intro p out r h
    simp [runLoopLang] at h
  | succ f ih =>
    intro p out r h
    rw [runLoopLang] at h
    by_cases hg : p.bound.gtInt p.steps
    · rw [if_pos hg] at h
      rcases hp : p.step with ⟨o, p2⟩
      rw [hp] at h
      cases o with
      | some v => exact ih p2 _ r h
      | none =>
        have hnone : (Program.step p).1 = none := by rw [hp]
        have heq := step_halt_eq p hnone
        rw [heq] at hp
        injection hp with hp1 hp2
        cases h
        subst hp2
        refine ⟨Or.inl rfl, ⟨fun _ => ⟨hg, hnone⟩, fun _ => rfl⟩, ?_, ?_⟩
        · intro hcon
          exact RunRet.noConfusion hcon
        · intro hgf
          exact absurd (hg.symm.trans hgf) (by decide)
    · rw [if_neg hg] at h
      cases h
      have hgf : p.bound.gtInt p.steps = false := by
        cases hb : p.bound.gtInt p.steps
        · rfl
        · exact absurd hb hg
      refine ⟨Or.inr rfl, ⟨?_, ?_⟩, fun _ => hgf, fun _ => rfl⟩
      · intro hcon
        exact RunRet.noConfusion hcon
      · intro hhalt
        exact absurd (hgf.symm.trans hhalt.1) (by decide)

/-- The lang Run loop appends, after the text already written, exactly one
newline-terminated decimal line per value produced by the successive Step
calls, in production order. -/
theorem runLoopLang_emits :
    ∀ (f : Nat) (p : Program) (out : String) (r : String × RunRet × Program),
      runLoopLang f p out = some r →
        ∃ m : Nat, r.1 = out ++ valueLines (stepValues m p) := by
  intro f
  induction f with
  | zero =>
    intro p out r h
    simp [runLoopLang] at h
  | succ f ih =>
    intro p out r h
    rw [runLoopLang] at h
    by_cases hg : p.bound.gtInt p.steps
    · rw [if_pos hg] at h
      rcases hp : p.step with ⟨o, p2⟩
      rw [hp] at h
      cases o with
      | some v =>
        obtain ⟨m, hm⟩ := ih p2 _ r h
        refine ⟨m + 1, ?_⟩
        rw [hm]
        have hsv : stepValues (m + 1) p = v :: stepValues m p2 := by
          show (match Program.step p with
            | (some v2, q) => v2 :: stepValues m q
            | (none, _) => []) = _
          rw [hp]
        rw [hsv]
        show out ++ intStr v ++ "
" ++ valueLines (stepValues m p2) =
          out ++ (intStr v ++ "
" ++ valueLines (stepValues m p2))
        simp only [strAppend_assoc]
      | none =>
        cases h
        exact ⟨0, (strAppend_empty out).symm⟩
    · rw [if_neg hg] at h
      cases h
      exact ⟨0, (strAppend_empty out).symm⟩

/-- The fractran Run loop writes the same output as the lang loop: one
newline-terminated decimal line per produced value, in production order. -/
theorem runLoopF_emits :
    ∀ (f : Nat) (p : Program) (out : String) (r : String × RunRet × Program),
      runLoopF f p out = some r →
        ∃ m : Nat, r.1 = out ++ valueLines (stepValues m p) := by
  intro f
  induction f with
  | zero =>
    intro p out r h
    simp [runLoopF] at h
  | succ f ih =>
    intro p out r h
    rw [runLoopF] at h
    by_cases hg : p.bound.gtInt p.steps
    · rw [if_pos hg] at h
      rcases hp : p.step with ⟨o, p2⟩
      rw [hp] at h
      cases o with
      | some v =>
        obtain ⟨m, hm⟩ := ih p2 _ r h
        refine ⟨m + 1, ?_⟩
        rw [hm]
        have hsv : stepValues (m + 1) p = v :: stepValues m p2 := by
          show (match Program.step p with
            | (some v2, q) => v2 :: stepValues m q
            | (none, _) => []) = _
          rw [hp]
        rw [hsv]
        show out ++ intStr v ++ "
" ++ valueLines (stepValues m p2) =
          out ++ (intStr v ++ "
" ++ valueLines (stepValues m p2))
        simp only [strAppend_assoc]
      | none =>
        cases h
        exact ⟨0, (strAppend_empty out).symm⟩
    · rw [if_neg hg] at h
      cases h
      exact ⟨0, (strAppend_empty out).symm⟩

/-- C3 counterexample: the claim says Run "returns normally (no error) when
the program halts", but the lang package Run returns the Halt sentinel error
value when Step halts (here on instructions 1/2 with seed 3). -/
theorem runLang_halt_returns_sentinel :
    (runLang 8 ⟨-1, 0, FloatB.finite 10, 0, [mkRat 1 2]⟩ 3).map (fun r => r.2.1) =
      some RunRet.halt ∧ RunRet.halt ≠ RunRet.ok := by decide

/-- C3 amended: for every valid Program and positive seed, Run's output is
exactly the values produced by the successive Step calls, one decimal value
per newline-terminated line, in production order (both packages); the
fractran package's Run returns nil both on halt and when the bound is
reached, while the legacy lang package's Run returns the Halt sentinel
error value exactly when the program halts below its bound and nil exactly
when the bound is reached; for instructions [2/1], seed 1, bound 3, both
write exactly the lines 1, 2, 4 and stop because of the bound. -/
theorem run_halt_and_bound_semantics :
    (∀ (f : Nat) (p : Program) (seed : Int) (r : String × RunRet × Program),
        0 < seed → runF f p seed = some r → r.2.1 = RunRet.ok) ∧
    (∀ (f : Nat) (p : Program) (seed : Int) (r : String × RunRet × Program),
        0 < seed → runLang f p seed = some r →
        (r.2.1 = RunRet.halt ∨ r.2.1 = RunRet.ok) ∧
        (r.2.1 = RunRet.halt ↔
          r.2.2.bound.gtInt r.2.2.steps = true ∧ (Program.step r.2.2).1 = none) ∧
        (r.2.1 = RunRet.ok ↔ r.2.2.bound.gtInt r.2.2.steps = false)) ∧
    (∀ (f : Nat) (p : Program) (seed : Int) (r : String × RunRet × Program),
        0 < seed → runLang f p seed = some r →
        ∃ m : Nat, r.1 = valueLines (stepValues m { p with n := mkRat seed 1 })) ∧
    (∀ (f : Nat) (p : Program) (seed : Int) (r : String × RunRet × Program),
        0 < seed → runF f p seed = some r →
        ∃ m : Nat, r.1 = valueLines (stepValues m { p with n := mkRat seed 1 })) ∧
    runLang 8 ⟨-1, 0, FloatB.finite 3, 0, [mkRat 2 1]⟩ 1 =
      some ("1\n2\n4\n", RunRet.ok, ⟨0, 3, FloatB.finite 3, 4, [mkRat 2 1]⟩) ∧
    runF 8 ⟨-1, 0, FloatB.finite 3, 0, [mkRat 2 1]⟩ 1 =
      some ("1\n2\n4\n", RunRet.ok, ⟨0, 3, FloatB.finite 3, 4, [mkRat 2 1]⟩) ∧
    runLang 8 ⟨-1, 0, FloatB.finite 10, 0, [mkRat 1 2]⟩ 3 =
      some ("3\n", RunRet.halt, ⟨-1, 1, FloatB.finite 10, 3, [mkRat 1 2]⟩) ∧
    runF 8 ⟨-1, 0, FloatB.finite 10, 0, [mkRat 1 2]⟩ 3 =
      some ("3\n", RunRet.ok, ⟨-1, 1, FloatB.finite 10, 3, [mkRat 1 2]⟩) := by
  refine ⟨?_, ?_, ?_, ?_, by decide, by decide, by decide, by decide⟩
  · intro f p seed r hs h
    unfold runF at h
    rw [if_neg (by omega)] at h
    exact runLoopF_ok f _ "" r h
  · intro f p seed r hs h
    unfold runLang at h
    rw [if_neg (by omega)] at h
    exact runLoopLang_code f _ "" r h
  · intro f p seed r hs h
    unfold runLang at h
    rw [if_neg (by omega)] at h
    obtain ⟨m, hm⟩ := runLoopLang_emits f _ "" r h
    refine ⟨m, ?_⟩
    rw [hm]
    exact strEmpty_append _
  · intro f p seed r hs h
    unfold runF at h
    rw [if_neg (by omega)] at h
    obtain ⟨m, hm⟩ := runLoopF_emits f _ "" r h
    refine ⟨m, ?_⟩
    rw [hm]
    exact strEmpty_append _

/-- C3 witness: the general emission conjunct applied to the concrete
bounded doubling run [2/1], seed 1, bound 3. -/
theorem run_halt_and_bound_semantics_witness :
    ∃ m : Nat, ("1\n2\n4\n" : String) =
      valueLines (stepValues m ⟨-1, 0, FloatB.finite 3, mkRat 1 1, [mkRat 2 1]⟩) :=
  run_halt_and_bound_semantics.2.2.1 8 ⟨-1, 0, FloatB.finite 3, 0, [mkRat 2 1]⟩ 1
    ("1\n2\n4\n", RunRet.ok, ⟨0, 3, FloatB.finite 3, 4, [mkRat 2 1]⟩)
    (by decide) (by decide)

/-- C5: the claim (and the comment in lang/program.go itself) says a
non-positive bound is rejected at construction, but the lang guard
math.IsInf(b, -1) && (b > 0) is unsatisfiable, so lang NewBoundProgram
accepts bound 0 and bound -1; the fractran package rejects them; the
non-positive fraction validation does work in lang. -/
theorem newBoundProgramLang_dead_bound_guard :
    newBoundProgramLang [mkRat 1 2] (FloatB.finite 0) =
      Except.ok ⟨-1, 0, FloatB.finite 0, 0, [mkRat 1 2]⟩ ∧
    newBoundProgramLang [mkRat 1 2] (FloatB.finite (-1)) =
      Except.ok ⟨-1, 0, FloatB.finite (-1), 0, [mkRat 1 2]⟩ ∧
    newBoundProgramF [mkRat 1 2] (FloatB.finite 0) = Except.error CtorErr.badBound ∧
    newBoundProgramF [mkRat 1 2] (FloatB.finite (-1)) = Except.error CtorErr.badBound ∧
    newBoundProgramLang [mkRat (-1) 2] (FloatB.finite 10) =
      Except.error (CtorErr.badFraction (mkRat (-1) 2)) ∧
    newBoundProgramLang [mkRat 0 1] (FloatB.finite 10) =
      Except.error (CtorErr.badFraction 0) :=
  ⟨by decide, by decide, by decide, by decide, by decide, by decide⟩

/-- Once the lang Debug loop reaches a halted state below its bound, every
iteration writes a bare newline, leaves the state unchanged and loops again:
no fuel is ever enough. -/
theorem debugLoopLang_halted_diverges :
    ∀ (f : Nat) (out : String),
      debugLoopLang f ⟨-1, 1, FloatB.finite 3, 3, [mkRat 1 2]⟩ out = none := by
  intro f
  induction f with
  | zero => intro out; rfl
  | succ f ih =>
    intro out
    have hstep : Program.step ⟨-1, 1, FloatB.finite 3, 3, [mkRat 1 2]⟩ =
        (none, ⟨-1, 1, FloatB.finite 3, 3, [mkRat 1 2]⟩) := by decide
    have hg : FloatB.gtInt (FloatB.finite 3) 1 = true := by decide
    rw [debugLoopLang]
    simp only [hg, if_pos, hstep]
    exact ih (out ++ "\n")

/-- C7: on a program that halts before its bound (instructions [1/2],
current value 3, bound 3) the lang Debug never stops: after the first
produced line the halt case keeps writing newlines forever (the model
returns the fuel-exhaustion marker for every fuel).  The fractran Debug
stops after the produced line exactly as the claim describes. -/
theorem debug_halt_behaviour :
    (∀ f : Nat, debugLoopLang f ⟨-1, 0, FloatB.finite 3, 3, [mkRat 1 2]⟩ "" = none) ∧
    debugLoopF 8 ⟨-1, 0, FloatB.finite 3, 3, [mkRat 1 2]⟩ "" =
      some ("3:\t1/2\n", ⟨-1, 1, FloatB.finite 3, 3, [mkRat 1 2]⟩) := by
  refine ⟨?_, by decide⟩
  intro f
  cases f with
  | zero => rfl
  | succ f =>
    have hstep : Program.step ⟨-1, 0, FloatB.finite 3, 3, [mkRat 1 2]⟩ =
        (some 3, ⟨-1, 1, FloatB.finite 3, 3, [mkRat 1 2]⟩) := by decide
    have hg : FloatB.gtInt (FloatB.finite 3) 0 = true := by decide
    rw [debugLoopLang]
    simp only [hg, if_pos, hstep]
    exact debugLoopLang_halted_diverges f _

/-- C8: halting is sticky.  If a Step call signals halt then it returned the
receiver unchanged, and every further Step call still signals halt on the
unchanged program. -/
theorem step_halt_sticky (p : Program) (h : (Program.step p).1 = none) :
    (Program.step p).2 = p ∧
      ∀ k : Nat, stepN k p = p ∧ (Program.step (stepN k p)).1 = none := by
  have h2 : Program.step p = (none, p) := by
    unfold Program.step at h ⊢
    by_cases hs : p.steps = 0
    · rw [if_pos hs] at h; simp at h
    · rw [if_neg hs] at h ⊢
      cases hscan : stepScan p.n p.instrs 0 with
      | none => rfl
      | some x => rw [hscan] at h; cases x; simp at h
  refine ⟨by rw [h2], ?_⟩
  intro k
  induction k with
  | zero => exact ⟨rfl, h⟩
  | succ k ih =>
    have hk : stepN (k + 1) p = p := by
      show (Program.step (stepN k p)).2 = p
      rw [ih.1, h2]
    exact ⟨hk, by rw [hk]; exact h⟩

/-- C8 witness: the sticky-halt theorem applied to a concrete halted
program (odd value 3 with the single instruction 1/2). -/
theorem step_halt_sticky_witness :
    (Program.step ⟨-1, 1, FloatB.posInf, 3, [mkRat 1 2]⟩).2 =
        ⟨-1, 1, FloatB.posInf, 3, [mkRat 1 2]⟩ ∧
      ∀ k : Nat, stepN k ⟨-1, 1, FloatB.posInf, 3, [mkRat 1 2]⟩ =
          ⟨-1, 1, FloatB.posInf, 3, [mkRat 1 2]⟩ ∧
        (Program.step (stepN k ⟨-1, 1, FloatB.posInf, 3, [mkRat 1 2]⟩)).1 = none :=
  step_halt_sticky ⟨-1, 1, FloatB.posInf, 3, [mkRat 1 2]⟩ (by decide)

/-- The instruction scan finds nothing exactly when no instruction's product
with n has reduced denominator 1. -/
theorem stepScan_none_iff (n : Rat) :
    ∀ (l : List Rat) (j : Nat),
      stepScan n l j = none ↔ ∀ i ∈ l, (ratMul n i).den ≠ 1 := by
  intro l
  induction l with
  | nil => intro j; simp [stepScan]
  | cons i rest ih =>
    intro j
    simp only [stepScan]
    by_cases hd : (ratMul n i).den = 1
    · simp [hd]
    · simp [hd, ih (j + 1)]

/-- The instruction scan returns the first index whose product with n is
integral, together with that product, offset by the running index j. -/
theorem stepScan_first (n : Rat) :
    ∀ (l : List Rat) (j k : Nat) (hk : k < l.length),
      (ratMul n (l.get ⟨k, hk⟩)).den = 1 →
      (∀ i ∈ l.take k, (ratMul n i).den ≠ 1) →
      stepScan n l j = some (j + k, ratMul n (l.get ⟨k, hk⟩)) := by
  intro l
  induction l with
  | nil => intro j k hk; exact absurd hk (by simp)
  | cons i rest ih =>
    intro j k hk hden hmin
    cases k with
    | zero =>
      have hi : (i :: rest).get ⟨0, hk⟩ = i := rfl
      rw [hi] at hden ⊢
      simp only [stepScan]
      rw [if_pos hden, Nat.add_zero]
    | succ k =>
      have h0 : (ratMul n i).den ≠ 1 := by
        apply hmin
        simp [List.take]
      have hrk : k < rest.length := Nat.lt_of_succ_lt_succ hk
      have hget : (i :: rest).get ⟨k + 1, hk⟩ = rest.get ⟨k, hrk⟩ := rfl
      rw [hget] at hden ⊢
      simp only [stepScan]
      rw [if_neg h0]
      have hmin2 : ∀ x ∈ rest.take k, (ratMul n x).den ≠ 1 := by
        intro x hx
        exact hmin x (by simp [List.take, hx])
      have := ih (j + 1) k hrk hden hmin2
      rw [this]
      have harith : j + 1 + k = j + (k + 1) := by omega
      rw [harith]

/-- C2: for a Program with positive instructions and a positive integral
current state, the first Step call (steps = 0) returns the current value and
only increments Steps to 1; every later Step call applies the first
instruction (lowest index k) whose exact product with the current state has
reduced denominator 1, storing the product as the new state, recording k in
Last, incrementing Steps and returning the new value (the numerator of the
integral product); if no instruction qualifies, Step signals halt and
changes nothing. -/
theorem step_spec (p : Program) (hden : p.n.den = 1) (hpos : 0 < p.n.num)
    (hinstr : ∀ i ∈ p.instrs, 0 < i) :
    (p.steps = 0 →
      Program.step p = (some p.n.num, { p with steps := p.steps + 1 })) ∧
    (p.steps ≠ 0 → ∀ (k : Nat) (hk : k < p.instrs.length),
      (ratMul p.n (p.instrs.get ⟨k, hk⟩)).den = 1 →
      (∀ i ∈ p.instrs.take k, (ratMul p.n i).den ≠ 1) →
      Program.step p =
        (some (ratMul p.n (p.instrs.get ⟨k, hk⟩)).num,
         { p with last := (k : Int), n := ratMul p.n (p.instrs.get ⟨k, hk⟩),
                  steps := p.steps + 1 })) ∧
    (p.steps ≠ 0 → (∀ i ∈ p.instrs, (ratMul p.n i).den ≠ 1) →
      Program.step p = (none, p)) := by
  refine ⟨?_, ?_, ?_⟩
  · intro h0
    unfold Program.step
    rw [if_pos h0]
  · intro hs k hk hdk hmin
    unfold Program.step
    rw [if_neg hs]
    rw [stepScan_first p.n p.instrs 0 k hk hdk hmin]
    simp [Nat.zero_add]
  · intro hs hall
    unfold Program.step
    rw [if_neg hs]
    rw [(stepScan_none_iff p.n p.instrs 0).2 hall]

/-- C2 witness: the step specification applied to the program with
instructions 1/3, 3/2 and state 2 after the observation step: 2 times 1/3
is not integral, 2 times 3/2 is the integer 3, so Step fires index 1. -/
theorem step_spec_witness :
    Program.step ⟨-1, 1, FloatB.posInf, 2, [mkRat 1 3, mkRat 3 2]⟩ =
      (some 3, ⟨1, 2, FloatB.posInf, 3, [mkRat 1 3, mkRat 3 2]⟩) := by
  have h := (step_spec ⟨-1, 1, FloatB.posInf, 2, [mkRat 1 3, mkRat 3 2]⟩
      (by decide) (by decide) (by decide)).2.1 (by decide) 1 (by decide)
      (by decide) (by decide)
  rw [h]
  decide

/-- C10: if the Steps counter already reached a finite bound, Run (either
version) writes nothing and returns nil, and the only field it changes is
the current value n, reset from the seed; Steps and Last keep their old
values, so a rerun needs an explicit reset. -/
theorem run_after_bound_reached (p : Program) (q : Rat) (seed : Int) (fuel : Nat)
    (hb : p.bound = FloatB.finite q) (hs : q ≤ (p.steps : Rat))
    (hseed : 0 < seed) (hf : 0 < fuel) :
    runLang fuel p seed = some ("", RunRet.ok, { p with n := mkRat seed 1 }) ∧
    runF fuel p seed = some ("", RunRet.ok, { p with n := mkRat seed 1 }) := by
  obtain ⟨f, rfl⟩ : ∃ f, fuel = f + 1 := ⟨fuel - 1, by omega⟩
  have hguard : ({ p with n := mkRat seed 1 } : Program).bound.gtInt
      ({ p with n := mkRat seed 1 } : Program).steps = false := by
    show p.bound.gtInt p.steps = false
    rw [hb]
    simp [FloatB.gtInt]
    exact hs
  constructor
  · unfold runLang
    rw [if_neg (by omega)]
    rw [runLoopLang, hguard]
    rfl
  · unfold runF
    rw [if_neg (by omega)]
    rw [runLoopF, hguard]
    rfl

/-- C10 witness: a program whose five steps already used up its bound of
five; a fresh Run with seed 7 writes nothing, returns nil, and only resets
n to 7. -/
theorem run_after_bound_reached_witness :
    runLang 1 ⟨3, 5, FloatB.finite 5, 770, [mkRat 2 1]⟩ 7 =
      some ("", RunRet.ok, ⟨3, 5, FloatB.finite 5, mkRat 7 1, [mkRat 2 1]⟩) ∧
    runF 1 ⟨3, 5, FloatB.finite 5, 770, [mkRat 2 1]⟩ 7 =
      some ("", RunRet.ok, ⟨3, 5, FloatB.finite 5, mkRat 7 1, [mkRat 2 1]⟩) :=
  run_after_bound_reached ⟨3, 5, FloatB.finite 5, 770, [mkRat 2 1]⟩ 5 7 1 rfl
    (by decide) (by decide) (by decide)
